import Mathlib

/-!
Verification of the prospect-ranking and topic-indexing pipeline of the
`clarm-ai/analytics` repository.

Strings are modelled as `List Char`.  The JavaScript sources embedded here:

* `apps/web/scripts/generate_semantic_insights.mjs` — `tokenize`, `topN`,
  `cosine`, `tfidfVectors`, `kmeans`, the topic labelling, the example
  selection and the unanswered-question detection in `main`;
* `apps/web/scripts/generate_interesting_stargazers.mjs` (same function in
  the stargazer API route) — `heuristicScore`;
* the client-side examples-index fallback selection of the dashboard `Home`
  component.

Floating point numbers are modelled by the reals; machine integers by
`Int`/`Nat` (all arithmetic in the embedded code stays far from any
floating-point or integer-precision boundary).
-/

namespace Analytics

/-- A single character of the token alphabet of `tokenize`: the split regex
`/[^a-z0-9@#]+/` keeps exactly lowercase ASCII letters, digits, `@` and `#`. -/
def isTokChar (c : Char) : Bool :=
  (97 ≤ c.toNat && c.toNat ≤ 122) || (48 ≤ c.toNat && c.toNat ≤ 57) ||
    c.toNat = 64 || c.toNat = 35

/-- JavaScript whitespace (the `\s` class, also used by `String.trim`). -/
def isJsSpace (c : Char) : Bool :=
  c.toNat = 9 || c.toNat = 10 || c.toNat = 11 || c.toNat = 12 || c.toNat = 13 ||
  c.toNat = 32 || c.toNat = 160 || c.toNat = 5760 ||
  (8192 ≤ c.toNat && c.toNat ≤ 8202) || c.toNat = 8232 || c.toNat = 8233 ||
  c.toNat = 8239 || c.toNat = 8287 || c.toNat = 12288 || c.toNat = 65279

/-- ASCII lowercasing, the fragment of `String.prototype.toLowerCase`
relevant to the pipeline (its inputs are then filtered to ASCII anyway). -/
def toLowerCh (c : Char) : Char :=
  if 65 ≤ c.toNat && c.toNat ≤ 90 then Char.ofNat (c.toNat + 32) else c

/-- Boolean test that `p` is an initial segment of the second list. -/
def startsWithB : List Char → List Char → Bool
  | [], _ => true
  | _ :: _, [] => false
  | a :: as, b :: bs => a = b && startsWithB as bs

/-- Substring test (`String.prototype.includes` / regex literal search). -/
def containsSub (pat : List Char) : List Char → Bool
  | [] => startsWithB pat []
  | c :: rest => startsWithB pat (c :: rest) || containsSub pat rest

/-- The URL pattern `/https?:\/\/\S+/` anchored at the head of the list:
returns the number of characters the (greedy) match consumes, or `none`. -/
def matchUrlLen (l : List Char) : Option Nat :=
  let att := fun (p : List Char) =>
    if startsWithB p l then
      let body := (l.drop p.length).takeWhile (fun c => ¬ isJsSpace c)
      if body.length = 0 then none else some (p.length + body.length)
    else none
  match att ("https://".toList) with
  | some n => some n
  | none => att ("http://".toList)

/-- Global replacement of `/https?:\/\/\S+/g` by a single space, scanning
left to right; `fuel` bounds the recursion (callers pass the list length,
which suffices since every step consumes at least one character). -/
def removeUrlsAux : Nat → List Char → List Char
  | 0, l => l
  | _ + 1, [] => []
  | fuel + 1, c :: rest =>
    match matchUrlLen (c :: rest) with
    | some n => ' ' :: removeUrlsAux fuel ((c :: rest).drop n)
    | none => c :: removeUrlsAux fuel rest

def removeUrls (l : List Char) : List Char := removeUrlsAux l.length l

/-- Splitting on maximal runs of characters satisfying `p`, discarding the
separators and empty fragments: the composition `.split(regex).filter(Boolean)`.
`cur` is the (reversed) run currently being read. -/
def splitRunsAux (p : Char → Bool) (cur : List Char) : List Char → List (List Char)
  | [] => if cur = [] then [] else [cur.reverse]
  | c :: rest =>
    if p c then splitRunsAux p (c :: cur) rest
    else if cur = [] then splitRunsAux p [] rest
    else cur.reverse :: splitRunsAux p [] rest

def splitRunsBy (p : Char → Bool) (l : List Char) : List (List Char) :=
  splitRunsAux p [] l

/-- The function `tokenize` of `generate_semantic_insights.mjs` (lines 8-14): lowercase,
strip URLs, split on `/[^a-z0-9@#]+/`, drop empty fragments. -/
def tokenize (x : List Char) : List (List Char) :=
  splitRunsBy isTokChar (removeUrls (x.map toLowerCh))

/-- Joining with single spaces, `Array.prototype.join(" ")`. -/
def joinSpace : List (List Char) → List Char
  | [] => []
  | [t] => t
  | t :: ts => t ++ ' ' :: joinSpace ts

/-! ### Properties of the tokenizer -/

theorem splitRunsAux_mem (p : Char → Bool) :
    ∀ (l : List Char) (cur : List Char), (∀ c ∈ cur, p c = true) →
      ∀ t ∈ splitRunsAux p cur l, t ≠ [] ∧ ∀ c ∈ t, p c = true := by
  intro l
  induction l with
  | nil =>
    intro cur hcur t ht
    simp only [splitRunsAux] at ht
    split at ht
    · simp at ht
    · rename_i hne
      simp only [List.mem_singleton] at ht
      subst ht
      refine ⟨by simpa using hne, ?_⟩
      intro c hc
      exact hcur c (List.mem_reverse.mp hc)
  | cons a l ih =>
    intro cur hcur t ht
    simp only [splitRunsAux] at ht
    split at ht
    · rename_i hpa
      refine ih (a :: cur) ?_ t ht
      intro c hc
      rcases List.mem_cons.mp hc with h | h
      · simpa [h] using hpa
      · exact hcur c h
    · split at ht
      · exact ih [] (by simp) t ht
      · rename_i hpa hne
        rcases List.mem_cons.mp ht with h | h
        · subst h
          refine ⟨by simpa using hne, ?_⟩
          intro c hc
          exact hcur c (List.mem_reverse.mp hc)
        · exact ih [] (by simp) t h

theorem tokenize_mem (x : List Char) :
    ∀ t ∈ tokenize x, t ≠ [] ∧ ∀ c ∈ t, isTokChar c = true :=
  splitRunsAux_mem isTokChar _ [] (by simp)

theorem toLowerCh_of_tokChar {c : Char} (h : isTokChar c = true) : toLowerCh c = c := by
  simp only [isTokChar, Bool.or_eq_true, Bool.and_eq_true, decide_eq_true_eq] at h
  simp only [toLowerCh, Bool.and_eq_true, decide_eq_true_eq, ite_eq_right_iff]
  intro hc
  omega

theorem tokChar_ne_colon {c : Char} (h : isTokChar c = true) : c ≠ ':' := by
  simp only [isTokChar, Bool.or_eq_true, Bool.and_eq_true, decide_eq_true_eq] at h
  intro hc
  subst hc
  simp at h

theorem startsWithB_mem {p l : List Char} (h : startsWithB p l = true) :
    ∀ c ∈ p, c ∈ l := by
  induction p generalizing l with
  | nil => simp
  | cons a as ih =>
    cases l with
    | nil => simp [startsWithB] at h
    | cons b bs =>
      simp only [startsWithB, Bool.and_eq_true, decide_eq_true_eq] at h
      intro c hc
      rcases List.mem_cons.mp hc with h' | h'
      · subst h'
        simp [h.1]
      · exact List.mem_cons_of_mem _ (ih h.2 c h')

theorem matchUrlLen_none {l : List Char} (h : ':' ∉ l) : matchUrlLen l = none := by
  have hatt : ∀ p : List Char, ':' ∈ p →
      (if startsWithB p l then
        (if ((l.drop p.length).takeWhile (fun c => ¬ isJsSpace c)).length = 0
          then none
          else some (p.length + ((l.drop p.length).takeWhile (fun c => ¬ isJsSpace c)).length))
        else none) = none := by
    intro p hp
    split
    · rename_i hs
      exact absurd (startsWithB_mem hs ':' hp) h
    · rfl
  simp only [matchUrlLen]
  rw [hatt ("https://".toList) (by decide), hatt ("http://".toList) (by decide)]

theorem removeUrlsAux_of_no_colon :
    ∀ (fuel : Nat) (l : List Char), ':' ∉ l → removeUrlsAux fuel l = l := by
  intro fuel
  induction fuel with
  | zero => intro l _; rfl
  | succ n ih =>
    intro l hl
    cases l with
    | nil => rfl
    | cons c rest =>
      simp only [removeUrlsAux, matchUrlLen_none hl]
      have : ':' ∉ rest := fun h => hl (List.mem_cons_of_mem _ h)
      rw [ih rest this]

theorem removeUrls_of_no_colon {l : List Char} (h : ':' ∉ l) : removeUrls l = l :=
  removeUrlsAux_of_no_colon _ l h

theorem splitRunsAux_append (p : Char → Bool) :
    ∀ (t : List Char), (∀ c ∈ t, p c = true) → ∀ (cur l : List Char),
      splitRunsAux p cur (t ++ l) = splitRunsAux p (t.reverse ++ cur) l := by
  intro t
  induction t with
  | nil => intro _ cur l; simp
  | cons a as ih =>
    intro ht cur l
    have hpa : p a = true := ht a (by simp)
    simp only [List.cons_append, splitRunsAux, hpa, if_true]
    show splitRunsAux p (a :: cur) (as ++ l) = _
    rw [ih (fun c hc => ht c (List.mem_cons_of_mem _ hc)) (a :: cur) l]
    simp

theorem splitRunsBy_joinSpace (p : Char → Bool) (hsp : p ' ' = false) :
    ∀ ts : List (List Char), (∀ t ∈ ts, t ≠ [] ∧ ∀ c ∈ t, p c = true) →
      splitRunsBy p (joinSpace ts) = ts := by
  intro ts
  induction ts with
  | nil => intro _; rfl
  | cons t ts ih =>
    intro h
    have ht := h t (by simp)
    cases ts with
    | nil =>
      show splitRunsAux p [] (joinSpace [t]) = [t]
      have : joinSpace [t] = t ++ [] := by simp [joinSpace]
      rw [this, splitRunsAux_append p t ht.2 [] []]
      simp only [splitRunsAux, List.append_nil]
      rw [if_neg (by simpa using ht.1)]
      simp
    | cons t' ts' =>
      show splitRunsAux p [] (joinSpace (t :: t' :: ts')) = t :: t' :: ts'
      have hj : joinSpace (t :: t' :: ts') = t ++ ' ' :: joinSpace (t' :: ts') := rfl
      rw [hj, splitRunsAux_append p t ht.2 [] _]
      simp only [splitRunsAux, hsp, List.append_nil, if_false, Bool.false_eq_true]
      rw [if_neg (by simpa using ht.1)]
      simp only [List.reverse_reverse, List.cons.injEq, true_and]
      exact ih (fun u hu => h u (List.mem_cons_of_mem _ hu))

theorem joinSpace_chars (ts : List (List Char))
    (h : ∀ t ∈ ts, ∀ c ∈ t, isTokChar c = true) :
    ∀ c ∈ joinSpace ts, isTokChar c = true ∨ c = ' ' := by
  induction ts with
  | nil => simp [joinSpace]
  | cons t ts ih =>
    cases ts with
    | nil =>
      intro c hc
      exact Or.inl (h t (by simp) c (by simpa [joinSpace] using hc))
    | cons t' ts' =>
      intro c hc
      have hj : joinSpace (t :: t' :: ts') = t ++ ' ' :: joinSpace (t' :: ts') := rfl
      rw [hj] at hc
      rcases List.mem_append.mp hc with h' | h'
      · exact Or.inl (h t (by simp) c h')
      · rcases List.mem_cons.mp h' with h'' | h''
        · exact Or.inr h''
        · exact ih (fun u hu => h u (List.mem_cons_of_mem _ hu)) c h''

theorem map_self_of_fixed {α : Type} (f : α → α) (l : List α)
    (h : ∀ a ∈ l, f a = a) : l.map f = l := by
  induction l with
  | nil => rfl
  | cons a l ih =>
    simp only [List.map_cons, h a (by simp), List.cons.injEq, true_and]
    exact ih (fun b hb => h b (List.mem_cons_of_mem _ hb))

/-- Claim C10. Every token produced by `tokenize` is a non-empty string over
the alphabet of lowercase ASCII letters, digits, `@` and `#`; and tokenizing
the empty string yields the empty sequence. -/
theorem tokenize_token_invariant (x t : List Char) (ht : t ∈ tokenize x) :
    (t ≠ [] ∧ ∀ c ∈ t, isTokChar c = true) ∧ tokenize ([] : List Char) = [] :=
  ⟨tokenize_mem x t ht, rfl⟩

theorem tokenize_token_invariant_witness :
    "hello".toList ∈ tokenize "Hello, World!".toList ∧
      (("hello".toList ≠ [] ∧ ∀ c ∈ "hello".toList, isTokChar c = true) ∧
        tokenize ([] : List Char) = []) :=
  ⟨by decide, tokenize_token_invariant "Hello, World!".toList "hello".toList (by decide)⟩

/-- Claim C9. Tokenization is idempotent across re-joining with single spaces:
for every string `x`, `tokenize (tokenize(x).join(" ")) = tokenize x`. -/
theorem tokenize_idempotent (x : List Char) :
    tokenize (joinSpace (tokenize x)) = tokenize x := by
  have htoks := tokenize_mem x
  have hchars : ∀ c ∈ joinSpace (tokenize x), isTokChar c = true ∨ c = ' ' :=
    joinSpace_chars _ (fun t ht => (htoks t ht).2)
  have hlower : (joinSpace (tokenize x)).map toLowerCh = joinSpace (tokenize x) := by
    refine map_self_of_fixed _ _ ?_
    intro c hc
    rcases hchars c hc with h | h
    · exact toLowerCh_of_tokChar h
    · subst h; decide
  have hcolon : ':' ∉ joinSpace (tokenize x) := by
    intro hmem
    rcases hchars ':' hmem with h | h
    · exact tokChar_ne_colon h rfl
    · simp at h
  show splitRunsBy isTokChar (removeUrls ((joinSpace (tokenize x)).map toLowerCh)) =
    tokenize x
  rw [hlower, removeUrls_of_no_colon hcolon]
  exact splitRunsBy_joinSpace isTokChar (by decide) _ htoks

/-! ### Messages and the unanswered-question detector -/

/-- The module-level `STOP` set of `generate_semantic_insights.mjs` (line 57). -/
def stopWords : List (List Char) :=
  (["a", "an", "and", "the", "this", "that", "to", "of", "in", "on", "for", "is",
    "are", "be", "we", "you", "i", "it", "at", "as", "by", "with", "or", "from",
    "your", "our", "their", "there", "here", "has", "have", "had", "do", "does",
    "done", "did", "can", "could", "should", "would", "will", "just", "also",
    "like", "into", "over", "under", "out", "up", "down", "again", "any", "some",
    "more", "most", "such", "so", "than", "then", "too", "very", "via", "www",
    "http", "https", "com", "discord", "github", "cua", "provider", "llm",
    "thought", "currently", "confirming", "love"]).map String.toList

def isStop (w : List Char) : Bool := stopWords.contains w

/-- A chat message, restricted to the fields the pipeline reads. -/
structure Msg where
  author_id : List Char
  text : List Char
deriving DecidableEq

/-- The URL test `/https?:\/\//.test(t)`. -/
def hasLink (t : List Char) : Bool :=
  containsSub ("http://".toList) t || containsSub ("https://".toList) t

def actionWords : List (List Char) :=
  (["try", "use", "run", "update", "fix", "works", "resolved", "solution",
    "guide", "docs"]).map String.toList

/-- The resolution-word test of the question loop (a substring regex). -/
def hasAction (t : List Char) : Bool := actionWords.any (fun w => containsSub w t)

/-- The overlap count
`tokenize(text).filter(w => !STOP.has(w)).slice(0,8).filter(w => t.includes(w)).length`:
how many of the first 8 non-stop-word tokens of the question occur as
substrings of the (lowercased) reply text `t`. -/
def overlapCount (qtext t : List Char) : Nat :=
  ((((tokenize qtext).filter (fun w => ¬ isStop w)).take 8).filter
    (fun w => containsSub w t)).length

/-- The inner test of the unanswered-question loop: does message `n` count
as an answer to question `m`? (`n.author_id && n.author_id !== m.author_id`,
then link / action word / token overlap on the lowercased text). -/
def answeredBy (m n : Msg) : Bool :=
  (n.author_id ≠ ([] : List Char) && n.author_id ≠ m.author_id) &&
    (let t := n.text.map toLowerCh
     hasLink t || hasAction t || 2 ≤ overlapCount m.text t)

/-- One step of the question loop (index `i`): `some text` when the message
is a question that no message in the next-10 window answers, else `none`. -/
def entryAt (msgs : List Msg) (i : Nat) : Option (List Char) :=
  let m := msgs.getD i ⟨[], []⟩
  if m.text.contains '?' && ¬ ((msgs.drop (i + 1)).take 10).any (answeredBy m)
    then some m.text else none

/-- The `questions` array built by lines 159-177 of
`generate_semantic_insights.mjs` (before the final `slice(0,10)`). -/
def unansweredQuestions (msgs : List Msg) : List (List Char) :=
  (List.range msgs.length).filterMap (entryAt msgs)

/-- The answered-condition exactly as claim C4 words it (length-≥-4 token
filter, and token sharing rather than substring containment); kept separate
from `answeredBy`, which is translated from the source, so the two can be
compared. -/
def claimAnsweredC4 (m n : Msg) : Bool :=
  (n.author_id ≠ m.author_id) &&
    (let t := n.text.map toLowerCh
     hasLink t || hasAction t ||
       2 ≤ ((((tokenize m.text).filter (fun w => ¬ isStop w && 4 ≤ w.length)).take 8).filter
         (fun w => (tokenize n.text).contains w)).length)

/-- Claim C4, counterexample. For the messages
`[{author_id:"u1", text:"abc def?"}, {author_id:"u2", text:"abc def"}]` no
window message satisfies the claimed condition (the question has no token of
length ≥ 4), yet the code excludes the question from the unanswered list:
its reply shares the length-3 tokens "abc" and "def" as substrings, which the
source counts (it applies no minimum token length). -/
theorem unanswered_claim_counterexample :
    ('?' ∈ (Msg.mk "u1".toList "abc def?".toList).text) ∧
    (∀ n ∈ (([Msg.mk "u1".toList "abc def?".toList,
              Msg.mk "u2".toList "abc def".toList]).drop 1).take 10,
        claimAnsweredC4 (Msg.mk "u1".toList "abc def?".toList) n = false) ∧
    entryAt [Msg.mk "u1".toList "abc def?".toList,
             Msg.mk "u2".toList "abc def".toList] 0 = none := by
  refine ⟨by decide, ?_, by decide⟩
  decide

/-- Claim C4, amended. A question at index `i` is excluded from the unanswered
list (its loop step yields `none`) iff some message among the next 10 has a
*non-empty* `author_id` different from the question's and either contains a
URL, or contains one of the resolution words as a substring, or at least 2 of
the first 8 non-stop-word tokens of the question (no minimum length) occur as
substrings of its lowercased text.  A non-`none` step contributes the
question text to the unanswered list. -/
theorem unanswered_excluded_iff (msgs : List Msg) (i : Nat) (hi : i < msgs.length)
    (hq : '?' ∈ (msgs.getD i ⟨[], []⟩).text) :
    (entryAt msgs i = none ↔ ∃ n ∈ (msgs.drop (i + 1)).take 10,
        n.author_id ≠ [] ∧ n.author_id ≠ (msgs.getD i ⟨[], []⟩).author_id ∧
          (hasLink (n.text.map toLowerCh) = true ∨ hasAction (n.text.map toLowerCh) = true ∨
            2 ≤ overlapCount (msgs.getD i ⟨[], []⟩).text (n.text.map toLowerCh))) ∧
    (entryAt msgs i ≠ none → (msgs.getD i ⟨[], []⟩).text ∈ unansweredQuestions msgs) := by
  constructor
  · have hq' : (msgs.getD i ⟨[], []⟩).text.contains '?' = true := by
      simpa [List.contains, List.elem_iff] using hq
    simp only [entryAt, hq', Bool.true_and, ite_eq_right_iff, reduceCtorEq,
      imp_false, Decidable.not_not, List.any_eq_true, answeredBy,
      Bool.and_eq_true, Bool.or_eq_true, decide_eq_true_eq, Nat.decLe,
      ne_eq, Bool.not_eq_true']
    constructor
    · rintro ⟨n, hn, ⟨ha1, ha2⟩, hcond⟩
      refine ⟨n, hn, by simpa using ha1, by simpa using ha2, ?_⟩
      exact or_assoc.mp (by simpa using hcond)
    · rintro ⟨n, hn, ha1, ha2, hcond⟩
      refine ⟨n, hn, ⟨by simpa using ha1, by simpa using ha2⟩, ?_⟩
      exact (by simpa using or_assoc.mpr hcond)
  · intro hne
    rcases hsome : entryAt msgs i with _ | t
    · exact absurd hsome hne
    · have htext : t = (msgs.getD i ⟨[], []⟩).text := by
        simp only [entryAt] at hsome
        split at hsome
        · exact (Option.some.injEq _ _ ▸ hsome).symm
        · exact absurd hsome (by simp)
      rw [← htext]
      exact List.mem_filterMap.mpr ⟨i, List.mem_range.mpr hi, hsome⟩

/-- Concrete two-message input used to witness `unanswered_excluded_iff`. -/
def msgsW4 : List Msg :=
  [Msg.mk "a".toList "how to fix this?".toList,
   Msg.mk "b".toList "try the docs".toList]

theorem unanswered_excluded_iff_witness :
    (0 < msgsW4.length ∧ '?' ∈ (msgsW4.getD 0 ⟨[], []⟩).text) ∧
    ((entryAt msgsW4 0 = none ↔ ∃ n ∈ (msgsW4.drop (0 + 1)).take 10,
        n.author_id ≠ [] ∧ n.author_id ≠ (msgsW4.getD 0 ⟨[], []⟩).author_id ∧
          (hasLink (n.text.map toLowerCh) = true ∨ hasAction (n.text.map toLowerCh) = true ∨
            2 ≤ overlapCount (msgsW4.getD 0 ⟨[], []⟩).text (n.text.map toLowerCh))) ∧
      (entryAt msgsW4 0 ≠ none → (msgsW4.getD 0 ⟨[], []⟩).text ∈ unansweredQuestions msgsW4)) :=
  ⟨⟨by decide, by decide⟩, unanswered_excluded_iff msgsW4 0 (by decide) (by decide)⟩

/-! ### The heuristic prospect scorer -/

/-- A GitHub stargazer, restricted to the fields `heuristicScore` reads.
The optional string fields are modelled as plain strings with `[]` for the
absent/falsy case (matching the truthiness tests of the source); the
`typeof ... === "number"` test on `company_public_members` is modelled with
`Option Int`. -/
structure Stargazer where
  company : List Char
  company_org : List Char
  company_public_members : Option Int
deriving DecidableEq

/-- Alternatives of the `titleBoost` regex (case-insensitive substring
match; `co[- ]founder` expands to its two literal forms). -/
def titleWords : List (List Char) :=
  (["cto", "chief technology", "vp eng", "vp of engineering", "head of eng",
    "director of eng", "founder", "co-founder", "co founder", "principal"]).map
    String.toList

/-- Alternatives of the `companyBoost` regex. -/
def companyWords : List (List Char) :=
  (["openai", "google", "microsoft", "amazon", "aws", "meta", "facebook",
    "datadog", "vercel", "cloudflare", "hashicorp", "stripe", "uber", "airbnb",
    "netflix", "snowflake"]).map String.toList

/-- Case-insensitive regex alternative test: some literal occurs in the
lowercased subject. -/
def matchesAny (pats : List (List Char)) (s : List Char) : Bool :=
  pats.any (fun w => containsSub w (s.map toLowerCh))

def joinCommaSpace : List (List Char) → List Char
  | [] => []
  | [r] => r
  | r :: rs => r ++ ", ".toList ++ joinCommaSpace rs

/-- The condition `s.company && companyBoost.test(s.company)`. -/
def companyHit (s : Stargazer) : Bool :=
  s.company ≠ ([] : List Char) && matchesAny companyWords s.company

/-- The condition `s.company && titleBoost.test(s.company)`. -/
def titleHit (s : Stargazer) : Bool :=
  s.company ≠ ([] : List Char) && matchesAny titleWords s.company

/-- Truthiness of `s.company_org`. -/
def orgHit (s : Stargazer) : Bool := s.company_org ≠ ([] : List Char)

/-- The `company_public_members` contribution (`+16` at `≥ 50`, `+8` at `≥ 10`). -/
def memberScoreOf (s : Stargazer) : Int :=
  match s.company_public_members with
  | none => 0
  | some m => if 50 ≤ m then 16 else if 10 ≤ m then 8 else 0

def memberReasonsOf (s : Stargazer) : List (List Char) :=
  match s.company_public_members with
  | none => []
  | some m =>
    if 50 ≤ m then ["large public member count".toList]
    else if 10 ≤ m then ["medium public member count".toList] else []

/-- The accumulated `score` of `heuristicScore`. -/
def scoreOf (s : Stargazer) : Int :=
  (if companyHit s then 12 else 0) + (if titleHit s then 16 else 0) +
    (if orgHit s then 6 else 0) + memberScoreOf s

/-- The `reasons` array of `heuristicScore`, in push order. -/
def reasonsOf (s : Stargazer) : List (List Char) :=
  (if companyHit s then ["known tech company".toList] else []) ++
  (if titleHit s then ["senior title".toList] else []) ++
  (if orgHit s then ["org @".toList ++ s.company_org] else []) ++ memberReasonsOf s

/-- The function `heuristicScore` of `generate_interesting_stargazers.mjs` (lines 22-38,
identically in the stargazer API route): the four additive signals, the
reason fragments pushed in source order, and the `reasons.join(', ') ||
'baseline'` fallback. -/
def heuristicScore (s : Stargazer) : Int × List Char :=
  (scoreOf s, if reasonsOf s = [] then "baseline".toList else joinCommaSpace (reasonsOf s))

theorem joinCommaSpace_head (r : List Char) (rs : List (List Char)) :
    ∃ rest, joinCommaSpace (r :: rs) = r ++ rest := by
  cases rs with
  | nil => exact ⟨[], by simp [joinCommaSpace]⟩
  | cons r' rs' => exact ⟨", ".toList ++ joinCommaSpace (r' :: rs'), by simp [joinCommaSpace]⟩

theorem joinCommaSpace_ne_of_head {a b : Char} (hab : a ≠ b) (r : List Char)
    (rs : List (List Char)) (l : List Char) :
    joinCommaSpace ((a :: r) :: rs) ≠ b :: l := by
  obtain ⟨rest, hrest⟩ := joinCommaSpace_head (a :: r) rs
  rw [hrest]
  simp [hab]

theorem reasonsOf_heads (s : Stargazer) :
    ∀ f ∈ reasonsOf s, ∃ a t, f = a :: t ∧ a ≠ 'b' := by
  intro f hf
  simp only [reasonsOf, List.mem_append] at hf
  rcases hf with ((h | h) | h) | h
  · split at h
    · refine ⟨'k', "nown tech company".toList, ?_, by decide⟩
      simpa using h
    · simp at h
  · split at h
    · refine ⟨'s', "enior title".toList, ?_, by decide⟩
      simpa using h
    · simp at h
  · split at h
    · refine ⟨'o', "rg @".toList ++ s.company_org, ?_, by decide⟩
      simp only [List.mem_singleton] at h
      rw [h, show ("org @".toList : List Char) = 'o' :: "rg @".toList from by decide]
      simp
    · simp at h
  · unfold memberReasonsOf at h
    rcases hm : s.company_public_members with _ | m
    · rw [hm] at h
      simp at h
    · rw [hm] at h
      have h' : f ∈ (if (50 : Int) ≤ m then ["large public member count".toList]
          else if (10 : Int) ≤ m then ["medium public member count".toList]
          else ([] : List (List Char))) := h
      by_cases h50 : (50 : Int) ≤ m
      · rw [if_pos h50] at h'
        refine ⟨'l', "arge public member count".toList, ?_, by decide⟩
        simpa using h'
      · rw [if_neg h50] at h'
        by_cases h10 : (10 : Int) ≤ m
        · rw [if_pos h10] at h'
          refine ⟨'m', "edium public member count".toList, ?_, by decide⟩
          simpa using h'
        · rw [if_neg h10] at h'
          simp at h'

theorem memberReasonsOf_nil_iff (s : Stargazer) :
    memberReasonsOf s = [] ↔ memberScoreOf s = 0 := by
  unfold memberReasonsOf memberScoreOf
  rcases s.company_public_members with _ | m
  · simp
  · by_cases h50 : (50 : Int) ≤ m
    · simp [h50]
    · by_cases h10 : (10 : Int) ≤ m
      · simp [h50, h10]
      · simp [h50, h10]

theorem memberScoreOf_nonneg (s : Stargazer) : 0 ≤ memberScoreOf s := by
  unfold memberScoreOf
  rcases s.company_public_members with _ | m
  · exact le_refl 0
  · by_cases h50 : (50 : Int) ≤ m
    · simp [h50]
    · by_cases h10 : (10 : Int) ≤ m
      · simp [h50, h10]
      · simp [h50, h10]

theorem reasonsOf_eq_nil_iff (s : Stargazer) :
    reasonsOf s = [] ↔ scoreOf s = 0 := by
  have h0 := memberScoreOf_nonneg s
  unfold reasonsOf scoreOf
  cases companyHit s <;> cases titleHit s <;> cases orgHit s <;>
    simp only [if_true, if_false, Bool.false_eq_true, List.nil_append,
      List.append_nil, List.singleton_append, List.cons_append, zero_add, add_zero]
  all_goals
    first
    | exact memberReasonsOf_nil_iff s
    | (constructor
       · intro h
         exact absurd h (by simp)
       · intro h
         exfalso
         omega)

/-- Claim C2. For every stargazer the heuristic score lies in `[0, 50]`, and
the reason is the literal `"baseline"` exactly when the score is `0`. -/
theorem heuristicScore_bounds (s : Stargazer) :
    0 ≤ (heuristicScore s).1 ∧ (heuristicScore s).1 ≤ 50 ∧
      ((heuristicScore s).2 = "baseline".toList ↔ (heuristicScore s).1 = 0) := by
  have hmem : 0 ≤ memberScoreOf s ∧ memberScoreOf s ≤ 16 := by
    unfold memberScoreOf
    rcases s.company_public_members with _ | m
    · exact ⟨le_refl 0, by norm_num⟩
    · constructor <;> (split <;> try split) <;> omega
  have hrange : 0 ≤ scoreOf s ∧ scoreOf s ≤ 50 := by
    unfold scoreOf
    cases companyHit s <;> cases titleHit s <;> cases orgHit s <;>
      simp only [if_true, if_false, Bool.false_eq_true, zero_add, add_zero] <;>
      omega
  refine ⟨hrange.1, hrange.2, ?_⟩
  show (if reasonsOf s = [] then "baseline".toList else joinCommaSpace (reasonsOf s)) =
      "baseline".toList ↔ scoreOf s = 0
  rcases hr : reasonsOf s with _ | ⟨f, fs⟩
  · simpa using (reasonsOf_eq_nil_iff s).mp hr
  · have hne : reasonsOf s ≠ [] := by simp [hr]
    have hscore : scoreOf s ≠ 0 := fun h => hne ((reasonsOf_eq_nil_iff s).mpr h)
    obtain ⟨a, t, hft, ha⟩ := reasonsOf_heads s f (by simp [hr])
    simp only [reduceCtorEq, if_false, hscore, iff_false]
    rw [hft]
    exact joinCommaSpace_ne_of_head ha t fs _

/-- Claim C3. The scenario stargazer `{company: "CTO @ OpenAI", company_org:
"openai", company_public_members: 120}` scores exactly `50 = 12 + 16 + 6 +
16` and its reason contains the fragments "known tech company",
"senior title", "org @openai" and "large public member count". -/
theorem heuristicScore_scenario :
    (heuristicScore ⟨"CTO @ OpenAI".toList, "openai".toList, some 120⟩).1 = 50 ∧
    (containsSub "known tech company".toList
        (heuristicScore ⟨"CTO @ OpenAI".toList, "openai".toList, some 120⟩).2 = true) ∧
    (containsSub "senior title".toList
        (heuristicScore ⟨"CTO @ OpenAI".toList, "openai".toList, some 120⟩).2 = true) ∧
    (containsSub "org @openai".toList
        (heuristicScore ⟨"CTO @ OpenAI".toList, "openai".toList, some 120⟩).2 = true) ∧
    (containsSub "large public member count".toList
        (heuristicScore ⟨"CTO @ OpenAI".toList, "openai".toList, some 120⟩).2 = true) := by
  decide

/-! ### Example selection -/

/-- JavaScript `String.prototype.trim`. -/
def trimJS (l : List Char) : List Char :=
  ((l.dropWhile isJsSpace).reverse.dropWhile isJsSpace).reverse

/-- Alternatives of the short-acknowledgement pattern
`/^(ok|thanks|ty|cool|nice|lol|yes|no|yep|np)[.!\s]/i`. -/
def ackWords : List (List Char) :=
  (["ok", "thanks", "ty", "cool", "nice", "lol", "yes", "no", "yep", "np"]).map
    String.toList

/-- Test of that pattern (`i` flag: match on the lowercased text; no listed
word is a proper prefix of another, so alternative order is irrelevant). -/
def ackStart (txt : List Char) : Bool :=
  let lt := txt.map toLowerCh
  ackWords.any (fun w => startsWithB w lt &&
    match lt.drop w.length with
    | c :: _ => c = '.' || c = '!' || isJsSpace c
    | [] => false)

/-- The candidate filter of the topic-example selection
(`generate_semantic_insights.mjs` lines 130-135): trimmed text of at least
20 characters not starting with a short acknowledgement. -/
def nonTrivial (m : Msg) : Bool :=
  let txt := trimJS m.text
  ¬ txt.length < 20 && ¬ ackStart txt

/-- First-occurrence-preserving deduplication (`new Set(...)` iteration order). -/
def dkfAux {α : Type} [DecidableEq α] (seen : List α) : List α → List α
  | [] => []
  | x :: xs => if x ∈ seen then dkfAux seen xs else x :: dkfAux (x :: seen) xs

def dedupKeepFirst {α : Type} [DecidableEq α] (l : List α) : List α := dkfAux [] l

/-- JavaScript `String.prototype.split` on a single literal character (keeps empty
fragments, unlike `splitRunsBy`). -/
def splitOnCAux (sep : Char) (cur : List Char) : List Char → List (List Char)
  | [] => [cur.reverse]
  | c :: rest =>
    if c = sep then cur.reverse :: splitOnCAux sep [] rest
    else splitOnCAux sep (c :: cur) rest

def splitChar (sep : Char) (l : List Char) : List (List Char) := splitOnCAux sep [] l

/-- Stable insertion of `x` into a descending-sorted list: `x` goes before
the first element whose key is not greater — so ties keep input order,
matching the stable `Array.prototype.sort` with comparator `b.key - a.key`. -/
def insDesc {α κ : Type} [LinearOrder κ] (key : α → κ) (x : α) : List α → List α
  | [] => [x]
  | y :: ys => if key x < key y then y :: insDesc key x ys else x :: y :: ys

/-- Stable descending sort by `key`. -/
def sortByDesc {α κ : Type} [LinearOrder κ] (key : α → κ) : List α → List α
  | [] => []
  | x :: xs => insDesc key x (sortByDesc key xs)

theorem length_insDesc {α κ : Type} [LinearOrder κ] (key : α → κ) (x : α) :
    ∀ l : List α, (insDesc key x l).length = l.length + 1 := by
  intro l
  induction l with
  | nil => rfl
  | cons y ys ih =>
    simp only [insDesc]
    split
    · simp [ih]
    · simp

theorem length_sortByDesc {α κ : Type} [LinearOrder κ] (key : α → κ) :
    ∀ l : List α, (sortByDesc key l).length = l.length := by
  intro l
  induction l with
  | nil => rfl
  | cons x xs ih => simp [sortByDesc, length_insDesc, ih]

/-- The `labelTokens` set of line 127: `new Set(label.split(' ').filter(Boolean))`. -/
def labelTokensOf (label : List Char) : List (List Char) :=
  dedupKeepFirst ((splitChar ' ' label).filter (fun w => w ≠ []))

/-- The per-candidate score of lines 136-140: the number of (distinct)
label tokens among the candidate's tokens. -/
def exampleScore (label : List Char) (m : Msg) : Nat :=
  ((labelTokensOf label).filter (fun t => (tokenize m.text).contains t)).length

/-- Lines 128-135: pair each cluster-member index with `messages[i]` and
keep the non-trivial ones. -/
def candidatesOf (messages : List Msg) (idxs : List Nat) : List (Nat × Msg) :=
  (idxs.map (fun i => (i, messages.getD i ⟨[], []⟩))).filter (fun p => nonTrivial p.2)

/-- The topic-example selection of `generate_semantic_insights.mjs`
(lines 127-143): score the non-trivial candidates by label-token overlap,
sort (stably) by score descending, fall back to all member indices at score
0 when no candidate survives the filter, keep the first 12 and resolve them
through `messages[i]`. -/
def selectExamples (messages : List Msg) (idxs : List Nat) (label : List Char) :
    List Msg :=
  let cands := (candidatesOf messages idxs).map (fun p => (p.1, exampleScore label p.2))
  let sorted := sortByDesc (fun p => (p.2 : Int)) cands
  let chosen := ((if sorted ≠ [] then sorted else idxs.map (fun i => (i, 0))).take 12).map
    (fun p => p.1)
  chosen.map (fun i => messages.getD i ⟨[], []⟩)

/-- The query tokens of the client-side examples-index fallback (`Home`
component): lowercase, split on `/[^a-z0-9]+/`, keep length ≥ 4, dedup. -/
def isAlnumCh (c : Char) : Bool :=
  (97 ≤ c.toNat && c.toNat ≤ 122) || (48 ≤ c.toNat && c.toNat ≤ 57)

def queryTokens (q : List Char) : List (List Char) :=
  dedupKeepFirst ((splitRunsBy isAlnumCh (q.map toLowerCh)).filter (fun w => 4 ≤ w.length))

/-- The score a message gets against query `q` in that fallback: +5 for the
whole query as a substring, +1 per query token contained. -/
def queryScore (q : List Char) (m : Msg) : Int :=
  let ql := q.map toLowerCh
  let text := m.text.map toLowerCh
  (if containsSub ql text then 5 else 0) +
    ((queryTokens q).filter (fun tok => containsSub tok text)).length

/-- The client-side examples-index fallback selection (`Home` component,
the `scored`/`filter(score > 0)`/`sort`/`slice(0, 10)` chain). -/
def queryFallbackSelect (allItems : List Msg) (q : List Char) : List Msg :=
  ((sortByDesc (fun p => p.2) ((allItems.map (fun m => (m, queryScore q m))).filter
    (fun p => 0 < p.2))).take 10).map (fun p => p.1)

/-- Claim C7, counterexample. The claim says a selector faced with candidates
that all score 0 still returns the most recent candidates. The client-side
examples-index fallback contradicts it: with one non-trivial candidate
(47 characters of text) scoring 0 against the query "database migration",
it returns the empty sequence (its `filter(r => r.score > 0)` removes every
candidate and it has no zero-score fallback). -/
theorem exampleFallback_counterexample :
    (20 ≤ (Msg.mk "u1".toList "hello there friend this is quite long indeed ok".toList).text.length) ∧
    queryScore "database migration".toList
      (Msg.mk "u1".toList "hello there friend this is quite long indeed ok".toList) = 0 ∧
    queryFallbackSelect
      [Msg.mk "u1".toList "hello there friend this is quite long indeed ok".toList]
      "database migration".toList = [] := by
  refine ⟨by decide, by decide, by decide⟩

/-- Claim C7, amended. The zero-score fallback holds for the topic-example
selection of `generate_semantic_insights.mjs` in the following form: whenever
at least one candidate passes the non-trivial filter, the selection is
non-empty (zero-scoring candidates are kept, in input order) and has at most
12 entries.  The client-side examples-index query fallback instead drops all
zero-scoring messages and can return the empty sequence (see the
counterexample). -/
theorem selectExamples_fallback (messages : List Msg) (idxs : List Nat)
    (label : List Char) (h : candidatesOf messages idxs ≠ []) :
    selectExamples messages idxs label ≠ [] ∧
      (selectExamples messages idxs label).length ≤ 12 := by
  unfold selectExamples
  dsimp only
  set cands := (candidatesOf messages idxs).map
    (fun p => (p.1, exampleScore label p.2)) with hcands
  have hc : cands ≠ [] := by
    simpa [hcands] using h
  have hs : sortByDesc (fun p => ((p.2 : Int))) cands ≠ [] := by
    intro hnil
    apply hc
    have := length_sortByDesc (fun p : Nat × Nat => ((p.2 : Int))) cands
    rw [hnil] at this
    exact List.length_eq_zero.mp this.symm
  rw [if_pos hs]
  constructor
  · intro hnil
    rcases hempty : sortByDesc (fun p : Nat × Nat => ((p.2 : Int))) cands with _ | ⟨p, ps⟩
    · exact hs hempty
    · rw [hempty] at hnil
      simp at hnil
  · calc ((((sortByDesc (fun p : Nat × Nat => ((p.2 : Int))) cands).take 12).map
        (fun p => p.1)).map (fun i => messages.getD i ⟨[], []⟩)).length
        = ((sortByDesc (fun p : Nat × Nat => ((p.2 : Int))) cands).take 12).length := by
          simp
      _ ≤ 12 := by simp

theorem selectExamples_fallback_witness :
    (candidatesOf [Msg.mk "u".toList "this message is long enough to be kept".toList]
        [0] ≠ []) ∧
    (selectExamples [Msg.mk "u".toList "this message is long enough to be kept".toList]
        [0] "anything".toList ≠ [] ∧
      (selectExamples [Msg.mk "u".toList "this message is long enough to be kept".toList]
        [0] "anything".toList).length ≤ 12) :=
  ⟨by decide, selectExamples_fallback _ [0] "anything".toList (by decide)⟩

/-! ### Term weighting (TF-IDF) -/

/-- A token. -/
abbrev Tok := List Char

/-- One `m.set(t, (m.get(t)||0)+1)` step of the term-frequency map. -/
def bump (f : Tok → ℕ) (t : Tok) : Tok → ℕ :=
  fun x => if x = t then f x + 1 else f x

/-- The term-frequency map of one document (`tf` of `tfidfVectors`). -/
def tfMap (d : List Tok) : Tok → ℕ := d.foldl bump (fun _ => 0)

theorem foldl_bump_apply : ∀ (d : List Tok) (f : Tok → ℕ) (t : Tok),
    (d.foldl bump f) t = f t + d.count t := by
  intro d
  induction d with
  | nil => simp
  | cons a d ih =>
    intro f t
    simp only [List.foldl_cons, ih, List.count_cons, bump]
    by_cases h : t = a
    · simp only [h, if_true, beq_self_eq_true]
      omega
    · have h' : ¬ (t == a) = true := by simpa using h
      have h'' : ¬ a = t := fun hh => h hh.symm
      simp [h, h', h'']

theorem tfMap_eq_count (d : List Tok) (t : Tok) : tfMap d t = d.count t := by
  simpa using foldl_bump_apply d (fun _ => 0) t

/-- Document frequency: in how many term-frequency maps the token is a key
(`df` of `tfidfVectors`). -/
def dfOf (docs : List (List Tok)) (t : Tok) : ℕ :=
  (docs.filter (fun d => tfMap d t ≠ 0)).length

theorem dfOf_eq (docs : List (List Tok)) (t : Tok) :
    dfOf docs t = (docs.filter (fun d => t ∈ d)).length := by
  unfold dfOf
  congr 1
  apply List.filter_congr
  intro d _
  simp [tfMap_eq_count, List.count_pos_iff.symm, Nat.pos_iff_ne_zero]

/-- The weight `c * (Math.log((1+N)/((df.get(k)||1)))+1)` that
`tfidfVectors` (line 29 of `generate_semantic_insights.mjs`) assigns to a
token of a document. -/
noncomputable def tfidfWeight (docs : List (List Tok)) (d : List Tok) (t : Tok) : ℝ :=
  (tfMap d t : ℝ) *
    (Real.log ((1 + (docs.length : ℝ)) /
      (if dfOf docs t = 0 then 1 else (dfOf docs t : ℝ))) + 1)

/-- The weight vector of one document: an entry for each distinct token, in
first-occurrence order (JavaScript `Map` iteration order). -/
noncomputable def tfidfVecOf (docs : List (List Tok)) (d : List Tok) : List (Tok × ℝ) :=
  (dedupKeepFirst d).map (fun t => (t, tfidfWeight docs d t))

/-- The function `tfidfVectors`. -/
noncomputable def tfidfVectors (docs : List (List Tok)) : List (List (Tok × ℝ)) :=
  docs.map (tfidfVecOf docs)

theorem dkfAux_mem {α : Type} [DecidableEq α] :
    ∀ (l : List α) (seen : List α) (x : α), x ∈ l → x ∈ dkfAux seen l ∨ x ∈ seen := by
  intro l
  induction l with
  | nil => simp
  | cons y ys ih =>
    intro seen x hx
    simp only [dkfAux]
    by_cases hy : y ∈ seen
    · rw [if_pos hy]
      rcases List.mem_cons.mp hx with h | h
      · exact Or.inr (h ▸ hy)
      · exact ih seen x h
    · rw [if_neg hy]
      rcases List.mem_cons.mp hx with h | h
      · exact Or.inl (by simp [h])
      · rcases ih (y :: seen) x h with h' | h'
        · exact Or.inl (List.mem_cons_of_mem _ h')
        · rcases List.mem_cons.mp h' with h'' | h''
          · exact Or.inl (by simp [h''])
          · exact Or.inr h''

theorem mem_dedupKeepFirst {α : Type} [DecidableEq α] {l : List α} {x : α}
    (hx : x ∈ l) : x ∈ dedupKeepFirst l := by
  rcases dkfAux_mem l [] x hx with h | h
  · exact h
  · simp at h

/-- Claim C1, counterexample. For the one-document collection `[["a"]]` the
claimed formula with the add-one-smoothed denominator `1 + df` would give
weight `1 * (ln(2/2) + 1) = 1` to the token `"a"`, but the code computes
`1 * (ln(2/1) + 1) = ln 2 + 1`: the implemented denominator is `df`, not
`1 + df`. -/
theorem tfidf_counterexample :
    tfidfWeight [[['a']]] [['a']] ['a'] ≠
      ((1 : ℝ) * (Real.log ((1 + 1) / (1 + 1)) + 1)) := by
  have h1 : tfMap [['a']] ['a'] = 1 := by decide
  have h2 : dfOf [[['a']]] ['a'] = 1 := by decide
  simp only [tfidfWeight, h1, h2, Nat.cast_one, List.length_singleton, one_ne_zero,
    if_false]
  norm_num

/-- Claim C1, amended. For a document `d` of the collection and a token `t`
occurring in it, the weight vector of `d` carries for `t` the weight
`c * (ln((1+N)/df) + 1)` with `c` the occurrence count of `t` in `d` and
`df ≥ 1` the number of documents containing `t` at least once — the
denominator is the raw document frequency, not `1 + df`. -/
theorem tfidf_weight_formula (docs : List (List Tok)) (d : List Tok) (t : Tok)
    (hd : d ∈ docs) (ht : t ∈ d) :
    (t, tfidfWeight docs d t) ∈ tfidfVecOf docs d ∧
    tfidfWeight docs d t = (d.count t : ℝ) *
      (Real.log ((1 + (docs.length : ℝ)) /
        (((docs.filter (fun d' => t ∈ d')).length : ℝ))) + 1) ∧
    1 ≤ (docs.filter (fun d' => t ∈ d')).length := by
  have hdf1 : 1 ≤ (docs.filter (fun d' => t ∈ d')).length := by
    have hmemf : d ∈ docs.filter (fun d' => t ∈ d') := by
      simp [List.mem_filter, hd, ht]
    have := List.length_pos.mpr (List.ne_nil_of_mem hmemf)
    omega
  refine ⟨?_, ?_, hdf1⟩
  · exact List.mem_map.mpr ⟨t, mem_dedupKeepFirst ht, rfl⟩
  · have hne : dfOf docs t ≠ 0 := by
      rw [dfOf_eq]
      omega
    rw [tfidfWeight, tfMap_eq_count, if_neg hne, dfOf_eq]

theorem tfidf_weight_formula_witness :
    (([['a']] : List Tok) ∈ ([[['a']], [['b']]] : List (List Tok)) ∧
      (['a'] : Tok) ∈ ([['a']] : List Tok)) ∧
    ((['a'], tfidfWeight [[['a']], [['b']]] [['a']] ['a']) ∈
        tfidfVecOf [[['a']], [['b']]] [['a']] ∧
      tfidfWeight [[['a']], [['b']]] [['a']] ['a'] = (([['a']] : List Tok).count ['a'] : ℝ) *
        (Real.log ((1 + (([[['a']], [['b']]] : List (List Tok)).length : ℝ)) /
          ((([[['a']], [['b']]].filter (fun d' => ['a'] ∈ d')).length : ℝ))) + 1) ∧
      1 ≤ ([[['a']], [['b']]].filter (fun d' => ['a'] ∈ d')).length) :=
  ⟨⟨by decide, by decide⟩,
    tfidf_weight_formula [[['a']], [['b']]] [['a']] ['a'] (by decide) (by decide)⟩

/-! ### Clustering (k-means over cosine similarity) -/

/-- A sparse weight vector: key/value entries in insertion order. -/
abbrev Vec (κ : Type) := List (κ × ℝ)

/-- Lookup with default, `b.get(k) || 0`. -/
def vGet {κ : Type} [DecidableEq κ] (b : Vec κ) (k : κ) : ℝ :=
  match b with
  | [] => 0
  | p :: rest => if p.1 = k then p.2 else vGet rest k

/-- Key-presence test of a `Map`. -/
def vHas {κ : Type} [DecidableEq κ] (b : Vec κ) (k : κ) : Bool :=
  match b with
  | [] => false
  | p :: rest => p.1 = k || vHas rest k

/-- JavaScript `Map.prototype.set`: update in place, or append a new key at the end. -/
def vSet {κ : Type} [DecidableEq κ] (a : Vec κ) (k : κ) (x : ℝ) : Vec κ :=
  if vHas a k then a.map (fun p => if p.1 = k then (p.1, x) else p) else a ++ [(k, x)]

/-- The function `cosine` of `generate_semantic_insights.mjs` (lines 20-23), including
the `|| 1` guard on a zero denominator. -/
noncomputable def cosine {κ : Type} [DecidableEq κ] (a b : Vec κ) : ℝ :=
  let na := (a.map (fun p => p.2 * p.2)).sum
  let dot := (a.map (fun p => p.2 * vGet b p.1)).sum
  let nb := (b.map (fun p => p.2 * p.2)).sum
  let denom := Real.sqrt na * Real.sqrt nb
  dot / (if denom = 0 then 1 else denom)

/-- The best-center scan (line 39): running index `i`, current best index
and similarity; strict improvement only, so ties keep the lower index. -/
noncomputable def bestAux {κ : Type} [DecidableEq κ] (v : Vec κ) :
    List (Vec κ) → ℕ → ℕ → ℝ → ℕ
  | [], _, best, _ => best
  | c :: rest, i, best, bestSim =>
    if bestSim < cosine v c then bestAux v rest (i + 1) i (cosine v c)
    else bestAux v rest (i + 1) best bestSim

noncomputable def bestCenter {κ : Type} [DecidableEq κ] (v : Vec κ)
    (centers : List (Vec κ)) : ℕ :=
  bestAux v centers 0 0 (-1)

/-- The assignment pass of one k-means iteration. -/
noncomputable def assignAll {κ : Type} [DecidableEq κ] (vs : List (Vec κ))
    (centers : List (Vec κ)) : List ℕ :=
  vs.map (fun v => bestCenter v centers)

/-- Accumulate vector `b` into sum-map `a` (`sums[c].set(k, (sums[c].get(k)||0)+v)`). -/
def addVec {κ : Type} [DecidableEq κ] (a b : Vec κ) : Vec κ :=
  b.foldl (fun acc p => vSet acc p.1 (vGet acc p.1 + p.2)) a

/-- The update pass (lines 43-45): per-group sums of member vectors become
the new centers (the computed `counts` are never used). -/
def updateCenters {κ : Type} [DecidableEq κ] (vs : List (Vec κ)) (assign : List ℕ)
    (m : ℕ) : List (Vec κ) :=
  (vs.zip assign).foldl (fun sums p => sums.set p.2 (addVec (sums.getD p.2 []) p.1))
    (List.replicate m [])

/-- The iteration loop: each round recomputes the assignment from the
current centers, then replaces the centers by the per-group sums; the
returned assignment is the one computed in the last round. -/
noncomputable def kmeansIter {κ : Type} [DecidableEq κ] (vs : List (Vec κ)) :
    List (Vec κ) → List ℕ → ℕ → List ℕ
  | _, assign, 0 => assign
  | centers, _, n + 1 =>
    let a := assignAll vs centers
    let c := updateCenters vs a centers.length
    kmeansIter vs c a n

/-- The function `kmeans` of `generate_semantic_insights.mjs` (lines 32-48): empty input
yields `[]`; otherwise the first `k` vectors seed the centers and the
assignment starts all-zero. -/
noncomputable def kmeans {κ : Type} [DecidableEq κ] (vs : List (Vec κ)) (k : ℕ)
    (iters : ℕ := 20) : List ℕ :=
  if vs.length = 0 then []
  else kmeansIter vs (vs.take k) (List.replicate vs.length 0) iters

theorem bestAux_lt {κ : Type} [DecidableEq κ] (v : Vec κ) :
    ∀ (centers : List (Vec κ)) (i best n : ℕ) (s : ℝ), best < n →
      i + centers.length ≤ n → bestAux v centers i best s < n := by
  intro centers
  induction centers with
  | nil => intro i best n s hb _; exact hb
  | cons c rest ih =>
    intro i best n s hb hlen
    simp only [List.length_cons] at hlen
    simp only [bestAux]
    split
    · exact ih (i + 1) i n (cosine v c) (by omega) (by omega)
    · exact ih (i + 1) best n s hb (by omega)

theorem bestCenter_lt {κ : Type} [DecidableEq κ] (v : Vec κ) (centers : List (Vec κ))
    (h : centers ≠ []) : bestCenter v centers < centers.length := by
  have hpos : 0 < centers.length := List.length_pos.mpr h
  exact bestAux_lt v centers 0 0 centers.length (-1) hpos (by omega)

theorem length_updateCenters {κ : Type} [DecidableEq κ] (vs : List (Vec κ))
    (assign : List ℕ) (m : ℕ) : (updateCenters vs assign m).length = m := by
  unfold updateCenters
  have : ∀ (l : List (Vec κ × ℕ)) (acc : List (Vec κ)),
      (l.foldl (fun sums p => sums.set p.2 (addVec (sums.getD p.2 []) p.1)) acc).length =
        acc.length := by
    intro l
    induction l with
    | nil => intro acc; rfl
    | cons p l ih => intro acc; rw [List.foldl_cons, ih, List.length_set]
  rw [this, List.length_replicate]

theorem kmeansIter_bound {κ : Type} [DecidableEq κ] (vs : List (Vec κ)) (k : ℕ)
    (hk : 0 < k) :
    ∀ (n : ℕ) (centers : List (Vec κ)) (a : List ℕ), centers.length = k →
      (∀ g ∈ a, g < k) → a.length = vs.length →
      (kmeansIter vs centers a n).length = vs.length ∧
        ∀ g ∈ kmeansIter vs centers a n, g < k := by
  intro n
  induction n with
  | zero => intro centers a _ ha hlen; exact ⟨hlen, ha⟩
  | succ n ih =>
    intro centers a hc _ _
    have hcne : centers ≠ [] := by
      intro h
      rw [h] at hc
      simp at hc
      omega
    show (kmeansIter vs (updateCenters vs (assignAll vs centers) centers.length)
        (assignAll vs centers) n).length = vs.length ∧ _
    refine ih _ _ ?_ ?_ ?_
    · rw [length_updateCenters, hc]
    · intro g hg
      obtain ⟨v, _, hv⟩ := List.mem_map.mp hg
      rw [← hv, ← hc]
      exact bestCenter_lt v centers hcne
    · simp [assignAll]

/-- Claim C5, amended. For `1 ≤ k ≤ N` the clustering assigns every input
vector exactly one group index, and every assigned index lies in `[0, k)`;
but a group index in `[0, k)` may end up with no member (see the
counterexample below), so the "no group of size 0" half of the claim fails. -/
theorem kmeans_assignment {κ : Type} [DecidableEq κ] (vs : List (Vec κ))
    (k iters : ℕ) (h1 : 1 ≤ k) (h2 : k ≤ vs.length) :
    (kmeans vs k iters).length = vs.length ∧ ∀ g ∈ kmeans vs k iters, g < k := by
  have hne : ¬ vs.length = 0 := by omega
  unfold kmeans
  rw [if_neg hne]
  refine kmeansIter_bound vs k (by omega) iters _ _ ?_ ?_ ?_
  · rw [List.length_take]
    omega
  · intro g hg
    have := List.eq_of_mem_replicate hg
    omega
  · exact List.length_replicate _ _

theorem kmeans_assignment_witness :
    (1 ≤ 1 ∧ 1 ≤ ([[(['a'], (1 : ℝ))]] : List (Vec Tok)).length) ∧
    ((kmeans ([[(['a'], (1 : ℝ))]] : List (Vec Tok)) 1 20).length =
        ([[(['a'], (1 : ℝ))]] : List (Vec Tok)).length ∧
      ∀ g ∈ kmeans ([[(['a'], (1 : ℝ))]] : List (Vec Tok)) 1 20, g < 1) :=
  ⟨⟨le_refl 1, by simp⟩,
    kmeans_assignment [[(['a'], (1 : ℝ))]] 1 20 (le_refl 1) (by simp)⟩

/-- The input vector of the empty-group counterexample: the weight vector
`{a: 1}`, twice. -/
def vC5 : Vec Tok := [(['a'], (1 : ℝ))]

/-- The sum vector `{a: 2}` that group 0 accumulates. -/
def wC5 : Vec Tok := [(['a'], (2 : ℝ))]

theorem sqrt_four : Real.sqrt 4 = 2 := by
  rw [show (4 : ℝ) = 2 ^ 2 by norm_num, Real.sqrt_sq (by norm_num : (0 : ℝ) ≤ 2)]

theorem cosine_vv : cosine vC5 vC5 = 1 := by
  simp [cosine, vC5, vGet]

theorem cosine_vw : cosine vC5 wC5 = 1 := by
  simp only [cosine, vC5, wC5, vGet, List.map_cons, List.map_nil, List.sum_cons,
    List.sum_nil, if_pos rfl]
  norm_num [sqrt_four]

theorem cosine_ve : cosine vC5 ([] : Vec Tok) = 0 := by
  simp [cosine, vC5, vGet]

theorem assign_step_one : assignAll [vC5, vC5] [vC5, vC5] = [0, 0] := by
  simp only [assignAll, bestCenter, bestAux, List.map_cons, List.map_nil, cosine_vv]
  norm_num

theorem assign_step_two : assignAll [vC5, vC5] [wC5, []] = [0, 0] := by
  simp only [assignAll, bestCenter, bestAux, List.map_cons, List.map_nil,
    cosine_vw, cosine_ve]
  norm_num

theorem update_step : updateCenters [vC5, vC5] [0, 0] 2 = [wC5, []] := by
  simp only [updateCenters, vC5, wC5, List.zip_cons_cons, List.zip_nil_left,
    List.foldl_cons, List.foldl_nil, addVec, vSet, vGet, vHas]
  norm_num [List.replicate]

theorem kmeansIter_fixed : ∀ n, kmeansIter [vC5, vC5] [wC5, []] [0, 0] n = [0, 0] := by
  intro n
  induction n with
  | zero => rfl
  | succ n ih =>
    show kmeansIter [vC5, vC5]
      (updateCenters [vC5, vC5] (assignAll [vC5, vC5] [wC5, []]) 2)
      (assignAll [vC5, vC5] [wC5, []]) n = [0, 0]
    rw [assign_step_two, update_step]
    exact ih

/-- Claim C5, counterexample. For the two identical weight vectors `{a: 1}`
and `k = 2` (within `[1, N]`), the fixed-tie-breaking assignment sends both
vectors to group 0 in every one of the 20 rounds, so group index 1 —
inside `[0, k)` — has no member: a group of size 0 exists even with `k`
within the claimed clamp range. -/
theorem kmeans_empty_group_counterexample :
    kmeans [vC5, vC5] 2 20 = [0, 0] ∧ (1 : ℕ) ∉ kmeans [vC5, vC5] 2 20 := by
  have hmain : kmeans [vC5, vC5] 2 20 = [0, 0] := by
    show kmeansIter [vC5, vC5] ([vC5, vC5].take 2) (List.replicate 2 0) 20 = [0, 0]
    show kmeansIter [vC5, vC5]
      (updateCenters [vC5, vC5] (assignAll [vC5, vC5] [vC5, vC5]) 2)
      (assignAll [vC5, vC5] [vC5, vC5]) 19 = [0, 0]
    rw [assign_step_one, update_step]
    exact kmeansIter_fixed 19
  refine ⟨hmain, ?_⟩
  rw [hmain]
  decide

/-! ### Topic labelling -/

/-- Lookup with default 0 for the counting maps. -/
def cGet {κ : Type} [DecidableEq κ] : List (κ × ℕ) → κ → ℕ
  | [], _ => 0
  | p :: rest, k => if p.1 = k then p.2 else cGet rest k

def cHas {κ : Type} [DecidableEq κ] : List (κ × ℕ) → κ → Bool
  | [], _ => false
  | p :: rest, k => p.1 = k || cHas rest k

/-- One `m.set(k, (m.get(k)||0)+1)` step on a counting map. -/
def bumpList {κ : Type} [DecidableEq κ] (m : List (κ × ℕ)) (k : κ) : List (κ × ℕ) :=
  if cHas m k then m.map (fun p => if p.1 = k then (p.1, cGet m k + 1) else p)
  else m ++ [(k, 1)]

/-- The function `topN`: entries sorted by count descending (stably), first `n` kept. -/
def topN {α : Type} (m : List (α × ℕ)) (n : ℕ) : List (α × ℕ) :=
  (sortByDesc (fun p => (p.2 : Int)) m).take n

/-- All length-`n` windows of a token list (`for i=0; i<=len-n`). -/
def gramsOfLen (n : ℕ) (arr : List Tok) : List (List Tok) :=
  if n ≤ arr.length then (List.range (arr.length - n + 1)).map (fun i => (arr.drop i).take n)
  else []

/-- The function `frequentNGrams` (lines 68-77): count stop-word-free `n`-grams, return
the `top` most frequent joined grams. -/
def frequentNGrams (toks : List Tok) (n top : ℕ) : List (List Char) :=
  let keys := ((gramsOfLen n toks).filter (fun g => ¬ g.any isStop)).map joinSpace
  ((topN (keys.foldl bumpList []) top)).map (fun p => p.1)

/-- The function `scorePhrase` (lines 86-90): average smoothed IDF of the phrase tokens
(the unused `ok` flag is dropped). -/
noncomputable def scorePhrase (docs : List (List Tok)) (toks : List Tok) : ℝ :=
  (toks.map (fun t => Real.log ((1 + (docs.length : ℝ)) /
    (if dfOf docs t = 0 then 1 else (dfOf docs t : ℝ))))).sum / ((max 1 toks.length : ℕ) : ℝ)

/-- The near-duplicate-suppressing selection loop of `bestPhrases`
(lines 111-116): keep a phrase unless it contains or is contained in an
already kept one; stop once `top` are kept. -/
def phraseLoop (top : ℕ) (out : List (List Char)) :
    List (List Char × ℕ × ℝ) → List (List Char)
  | [] => out
  | r :: rest =>
    let dup := out.any (fun u => containsSub u r.1 || containsSub r.1 u)
    let out' := if dup then out else out ++ [r.1]
    if top ≤ out'.length then out' else phraseLoop top out' rest

/-- The function `bestPhrases` (lines 91-118): count 4-, 3- and 2-grams (longest first,
stop-word-free), score each distinct joined gram by
`scorePhrase(k.split(' ')).score * count`, keep counts ≥ 2 and keys of
length ≥ 6, sort by score descending, dedup by substring containment. -/
noncomputable def bestPhrases (docs : List (List Tok)) (tokensFlat : List Tok)
    (top : ℕ) : List (List Char) :=
  let keys := ((gramsOfLen 4 tokensFlat ++ gramsOfLen 3 tokensFlat ++
    gramsOfLen 2 tokensFlat).filter (fun g => ¬ g.any isStop)).map joinSpace
  let counts := keys.foldl bumpList []
  let scored := counts.map (fun p =>
    (p.1, p.2, scorePhrase docs (splitChar ' ' p.1) * (p.2 : ℝ)))
  let kept := scored.filter (fun r => 2 ≤ r.2.1 && 6 ≤ r.1.length)
  phraseLoop top [] (sortByDesc (fun r => r.2.2) kept)

/-- The cluster label of lines 119-125: best phrase, else most frequent
2-gram, else top single tokens; then trimmed to at most 4 non-stop words of
length ≥ 3. -/
noncomputable def labelFor (docs : List (List Tok)) (idxs : List ℕ) : List Char :=
  let tokensFlat := (idxs.map (fun i => docs.getD i [])).flatten
  let bag := tokensFlat.foldl bumpList []
  let l0 := match bestPhrases docs tokensFlat 3 with
    | p :: _ => p
    | [] =>
      match frequentNGrams tokensFlat 2 1 with
      | g :: _ => g
      | [] => joinSpace ((((topN bag 3).map (fun p => p.1)).filter
          (fun w => ¬ isStop w)).take 3)
  joinSpace (((splitChar ' ' l0).filter (fun w => 3 ≤ w.length && ¬ isStop w)).take 4)

/-- The published topic label (line 144): `label || "Cluster N"`. -/
noncomputable def clusterLabel (docs : List (List Tok)) (idxs : List ℕ) (gi : ℕ) :
    List Char :=
  let l := labelFor docs idxs
  if l = [] then "Cluster ".toList ++ Nat.toDigits 10 (gi + 1) else l

/-! ### The document pipeline -/

/-- Lines 58-60: per-message token documents with short and stop-word
tokens removed, documents of fewer than 3 tokens dropped (note this
*re-indexes*: document `i` need not come from message `i`). -/
def docsOf (messages : List Msg) : List (List Tok) :=
  (messages.map (fun m => (tokenize m.text).filter
    (fun t => 3 ≤ t.length && ¬ isStop t))).filter (fun d => 3 ≤ d.length)

/-- The `k` of line 62: `min(8, max(3, floor(docs.length/20)))`. -/
def kOf (messages : List Msg) : ℕ := min 8 (max 3 ((docsOf messages).length / 20))

/-- The group assignment of line 62. -/
noncomputable def pipelineGroups (messages : List Msg) : List ℕ :=
  kmeans (tfidfVectors (docsOf messages)) (kOf messages) 20

/-- The member (document) indices of group `g` (lines 64-65), in input order. -/
def clusterMembers (groups : List ℕ) (g : ℕ) : List ℕ :=
  (List.range groups.length).filter (fun i => groups.getD i 0 = g)

theorem assignAll_single {κ : Type} [DecidableEq κ] (v c : Vec κ) :
    assignAll [v] [c] = [0] := by
  simp only [assignAll, List.map_cons, List.map_nil, bestCenter, bestAux]
  split <;> rfl

theorem updateCenters_single {κ : Type} [DecidableEq κ] (v : Vec κ) :
    updateCenters [v] [0] 1 = [addVec [] v] := by
  simp [updateCenters, List.replicate]

theorem kmeansIter_single {κ : Type} [DecidableEq κ] :
    ∀ (n : ℕ) (v c : Vec κ), kmeansIter [v] [c] [0] n = [0] := by
  intro n
  induction n with
  | zero => intro v c; rfl
  | succ n ih =>
    intro v c
    show kmeansIter [v] (updateCenters [v] (assignAll [v] [c]) 1)
      (assignAll [v] [c]) n = [0]
    rw [assignAll_single, updateCenters_single]
    exact ih v (addVec [] v)

/-- The concrete two-message channel of the C6 failing input: an empty-text
message followed by a contentful one. -/
def msgsC6 : List Msg :=
  [Msg.mk "u1".toList [], Msg.mk "u2".toList "alpha beta gamma delta".toList]

theorem docsOf_msgsC6 : docsOf msgsC6 =
    [["alpha".toList, "beta".toList, "gamma".toList, "delta".toList]] := by
  decide

theorem pipelineGroups_msgsC6 : pipelineGroups msgsC6 = [0] := by
  have hk : kOf msgsC6 = 3 := by
    unfold kOf
    rw [docsOf_msgsC6]
    rfl
  unfold pipelineGroups
  rw [docsOf_msgsC6, hk]
  unfold tfidfVectors kmeans
  rw [List.map_cons, List.map_nil, if_neg (by simp)]
  exact kmeansIter_single 20 _ _

/-- Claim C6 (a code bug). On the two-message channel `msgsC6`, the pipeline
builds one document (from message 1, the only message with enough tokens),
clusters it into group 0 with member *document* index 0, and the example
selection then reads `messages[0]` — the empty-text message — because it
indexes the message array with document indices.  The candidate filter
rejects it (length < 20) and the fallback branch returns it anyway: for
every label, the selected examples are exactly one message whose `text` is
empty, violating the claimed non-empty-text invariant (the count bound 12
does hold). -/
theorem selectExamples_empty_text_bug (label : List Char) :
    (selectExamples msgsC6 (clusterMembers (pipelineGroups msgsC6) 0) label).map
        Msg.text = [[]] ∧
    (selectExamples msgsC6 (clusterMembers (pipelineGroups msgsC6) 0) label).length
        ≤ 12 := by
  have h2 : clusterMembers (pipelineGroups msgsC6) 0 = [0] := by
    rw [pipelineGroups_msgsC6]
    decide
  rw [h2]
  have hc : candidatesOf msgsC6 [0] = [] := by decide
  constructor <;>
    simp [selectExamples, hc, sortByDesc, msgsC6]

/-! ### Determinism -/

/-- Claim C8. In this embedding every pipeline stage is a pure function — the
source draws no randomness anywhere (k-means seeds its centers with the
first `k` input vectors) — so two runs on the same input produce the same
clustering assignment, the same topic label and the same selected examples. -/
theorem pipeline_deterministic {κ : Type} [DecidableEq κ] (vectors : List (Vec κ))
    (k iters : ℕ) (docs : List (List Tok)) (idxs : List ℕ) (gi : ℕ)
    (messages : List Msg) (label : List Char)
    (a1 a2 : List ℕ) (l1 l2 : List Char) (e1 e2 : List Msg)
    (h1 : a1 = kmeans vectors k iters) (h2 : a2 = kmeans vectors k iters)
    (h3 : l1 = clusterLabel docs idxs gi) (h4 : l2 = clusterLabel docs idxs gi)
    (h5 : e1 = selectExamples messages idxs label)
    (h6 : e2 = selectExamples messages idxs label) :
    a1 = a2 ∧ l1 = l2 ∧ e1 = e2 :=
  ⟨h1.trans h2.symm, h3.trans h4.symm, h5.trans h6.symm⟩

theorem pipeline_deterministic_witness :
    kmeans ([] : List (Vec Tok)) 3 20 = kmeans ([] : List (Vec Tok)) 3 20 ∧
      clusterLabel [] [] 0 = clusterLabel [] [] 0 ∧
      selectExamples [] [] [] = selectExamples [] [] [] :=
  pipeline_deterministic ([] : List (Vec Tok)) 3 20 [] [] 0 [] []
    (kmeans [] 3 20) (kmeans [] 3 20) (clusterLabel [] [] 0) (clusterLabel [] [] 0)
    (selectExamples [] [] []) (selectExamples [] [] []) rfl rfl rfl rfl rfl rfl

end Analytics
